import Mathlib

/-
Verification of the any2md / doc2mkdocs normalization pipeline.

Shallow embedding of the Python sources:
  src/doc2mkdocs/normalizer/markdown_normalizer.py  (MarkdownNormalizer)
  src/doc2mkdocs/utils/filename_sanitizer.py        (sanitize_filename, get_unique_filename)
  src/doc2mkdocs/core/report.py                     (FileReport, ConversionReport)
  src/doc2mkdocs/normalizer/image_handler.py        (ImageHandler)
  src/any2md/core/base_converter.py                 (ConversionResult)
  src/any2md/normalizer/link_rewriter.py            (LinkRewriter)
  src/any2md/cli.py                                 (_convert_file, _get_output_path)

Python strings are modelled as `List Char` (the type alias `Str`).  Python's
whitespace set is modelled by its ASCII part (space, tab, newline, carriage
return, vertical tab, form feed); `str.lower` / `str.upper` are modelled by
the ASCII `Char.toLower` / `Char.toUpper`.  Python floats are modelled as
rationals (the quality scores involved are small decimal literals and the
report code recomputes the average from scratch, so no rounding subtleties
are hidden by this choice).  Filesystem paths (`pathlib.Path`) are modelled
as a root flag plus the list of components, and the filesystem itself as the
list of existing file paths.
-/

namespace Any2MD

/-- Python string, modelled as a list of characters. -/
abbrev Str := List Char

/-- Coerce a Lean string literal to the model type. -/
def str (s : String) : Str := s.data

/-- ASCII part of Python's `str.isspace` / default `strip` character set. -/
def pyIsSpace (c : Char) : Bool :=
  c = ' ' || c = '\t' || c = '\n' || c = '\r' || c = Char.ofNat 11 || c = Char.ofNat 12

/-- Python `s.rstrip()` (also used for `line.rstrip()`): drop trailing whitespace. -/
def rstrip (l : Str) : Str := (l.reverse.dropWhile pyIsSpace).reverse

/-- Python `line.strip() == ""`: the line consists of whitespace only. -/
def isBlank (l : Str) : Bool := l.all pyIsSpace

/-- Python `content.split("\n")`. -/
def splitNl : Str → List Str
  | [] => [[]]
  | c :: cs =>
    let r := splitNl cs
    if c = '\n' then [] :: r
    else
      match r with
      | [] => [[c]]
      | h :: t => (c :: h) :: t

/-- Python `"\n".join(lines)`. -/
def joinNl : List Str → Str
  | [] => []
  | [k] => k
  | k :: rest => k ++ '\n' :: joinNl rest

/-- The blank-line collapsing loop of `MarkdownNormalizer.normalize_whitespace`
(`blank_count` state: keep a blank line only while the running count is at
most 2, reset the count on a non-blank line). -/
def blankFilter (c : Nat) : List Str → List Str
  | [] => []
  | a :: as =>
    if isBlank a then
      if c + 1 ≤ 2 then a :: blankFilter (c + 1) as else blankFilter (c + 1) as
    else a :: blankFilter 0 as

/-- `MarkdownNormalizer.normalize_whitespace`: rstrip each line, collapse runs
of blank lines to at most two, then right-trim the whole content and append a
single newline. -/
def normalize_whitespace (content : Str) : Str :=
  rstrip (joinNl (blankFilter 0 ((splitNl content).map rstrip))) ++ ['\n']

/-! ### Supporting lemmas for the whitespace normalizer -/

theorem dropWhile_self_idem (p : Char → Bool) (l : Str) :
    (l.dropWhile p).dropWhile p = l.dropWhile p := by
  induction l with
  | nil => rfl
  | cons c cs ih =>
    by_cases h : p c
    · simp [List.dropWhile_cons, h, ih]
    · simp [List.dropWhile_cons, h]

theorem rstrip_idem (l : Str) : rstrip (rstrip l) = rstrip l := by
  simp [rstrip, dropWhile_self_idem]

theorem mem_of_mem_dropWhile {p : Char → Bool} {a : Char} {l : Str}
    (h : a ∈ l.dropWhile p) : a ∈ l := by
  induction l with
  | nil => simp at h
  | cons c cs ih =>
    rw [List.dropWhile_cons] at h
    split at h
    · exact List.mem_cons_of_mem _ (ih h)
    · exact h

theorem mem_of_mem_rstrip {a : Char} {l : Str} (h : a ∈ rstrip l) : a ∈ l := by
  rw [rstrip, List.mem_reverse] at h
  have := mem_of_mem_dropWhile h
  rw [List.mem_reverse] at this
  exact this

theorem rstrip_of_blank {l : Str} (h : isBlank l = true) : rstrip l = [] := by
  rw [rstrip, List.dropWhile_eq_nil_iff.2, List.reverse_nil]
  intro x hx
  exact (List.all_eq_true.1 h) x (List.mem_reverse.1 hx)

theorem eq_nil_of_rstrip_self_blank {l : Str} (h1 : rstrip l = l) (h2 : isBlank l = true) :
    l = [] := by
  rw [← h1]; exact rstrip_of_blank h2

theorem isBlank_false_of_rstrip_self {l : Str} (h1 : rstrip l = l) (h2 : l ≠ []) :
    isBlank l = false := by
  rcases hb : isBlank l
  · rfl
  · exact absurd (eq_nil_of_rstrip_self_blank h1 hb) h2

theorem rstrip_append (xs ys : Str) :
    rstrip (xs ++ ys) = if rstrip ys = [] then rstrip xs else xs ++ rstrip ys := by
  rw [rstrip, List.reverse_append, List.dropWhile_append]
  by_cases h : (ys.reverse.dropWhile pyIsSpace).isEmpty
  · rw [if_pos h]
    have h2 : rstrip ys = [] := by
      rw [rstrip, List.isEmpty_iff.1 h, List.reverse_nil]
    rw [if_pos h2]; rfl
  · rw [if_neg h]
    have h2 : ¬ rstrip ys = [] := by
      intro hc
      rw [rstrip] at hc
      have := congrArg List.reverse hc
      rw [List.reverse_reverse, List.reverse_nil] at this
      exact h (by rw [this]; rfl)
    rw [if_neg h2, List.reverse_append, List.reverse_reverse, rstrip]

theorem splitNl_ne_nil (l : Str) : splitNl l ≠ [] := by
  cases l with
  | nil => simp [splitNl]
  | cons c cs =>
    rw [splitNl]
    by_cases h : c = '\n'
    · simp [h]
    · simp only [if_neg h]
      split <;> simp

theorem nl_not_mem_splitNl (l : Str) : ∀ s ∈ splitNl l, '\n' ∉ s := by
  induction l with
  | nil => intro s hs; simp [splitNl] at hs; simp [hs]
  | cons c cs ih =>
    intro s hs
    rw [splitNl] at hs
    by_cases h : c = '\n'
    · simp only [if_pos h] at hs
      rcases List.mem_cons.1 hs with h1 | h1
      · simp [h1]
      · exact ih s h1
    · simp only [if_neg h] at hs
      rcases hr : splitNl cs with _ | ⟨hd, tl⟩
      · exact absurd hr (splitNl_ne_nil cs)
      · rw [hr] at hs
        rcases List.mem_cons.1 hs with h1 | h1
        · subst h1
          intro hmem
          rcases List.mem_cons.1 hmem with h2 | h2
          · exact h h2.symm
          · exact ih hd (by rw [hr]; exact List.mem_cons_self _ _) h2
        · exact ih s (by rw [hr]; exact List.mem_cons_of_mem _ h1)

theorem splitNl_nlfree {k : Str} (h : '\n' ∉ k) : splitNl k = [k] := by
  induction k with
  | nil => rfl
  | cons c cs ih =>
    rw [splitNl]
    have hc : ¬ c = '\n' := fun hh => h (by simp [hh])
    simp only [if_neg hc]
    rw [ih (fun hh => h (List.mem_cons_of_mem _ hh))]

theorem splitNl_append_cons {k : Str} (y : Str) (h : '\n' ∉ k) :
    splitNl (k ++ '\n' :: y) = k :: splitNl y := by
  induction k with
  | nil => simp [splitNl]
  | cons c cs ih =>
    have hc : ¬ c = '\n' := fun hh => h (by simp [hh])
    rw [List.cons_append, splitNl]
    simp only [if_neg hc]
    rw [ih (fun hh => h (List.mem_cons_of_mem _ hh))]

theorem splitNl_append_nl (A : Str) : splitNl (A ++ ['\n']) = splitNl A ++ [[]] := by
  induction A with
  | nil => rfl
  | cons c cs ih =>
    rw [List.cons_append, splitNl, splitNl]
    by_cases h : c = '\n'
    · simp [h, ih]
    · simp only [if_neg h]
      rw [ih]
      rcases hr : splitNl cs with _ | ⟨hd, tl⟩
      · exact absurd hr (splitNl_ne_nil cs)
      · simp

theorem splitNl_joinNl {K : List Str} (hne : K ≠ [])
    (hnl : ∀ s ∈ K, '\n' ∉ s) : splitNl (joinNl K) = K := by
  induction K with
  | nil => exact absurd rfl hne
  | cons k rest ih =>
    cases rest with
    | nil =>
      rw [joinNl]
      exact splitNl_nlfree (hnl k (List.mem_cons_self _ _))
    | cons k2 rest2 =>
      have hj : joinNl (k :: k2 :: rest2) = k ++ '\n' :: joinNl (k2 :: rest2) := rfl
      rw [hj, splitNl_append_cons _ (hnl k (List.mem_cons_self _ _))]
      rw [ih (by intro hc; exact List.noConfusion hc)
        (fun s hs => hnl s (List.mem_cons_of_mem _ hs))]

/-- Run-length predicate: starting from a running blank count `c`, every blank
line encountered keeps the count at most 2 (so `blankFilter` keeps everything). -/
def runsOK : Nat → List Str → Prop
  | _, [] => True
  | c, a :: as => if isBlank a then c + 1 ≤ 2 ∧ runsOK (c + 1) as else runsOK 0 as

theorem runsOK_mono {c d : Nat} (h : c ≤ d) : ∀ {l : List Str}, runsOK d l → runsOK c l := by
  intro l
  induction l generalizing c d with
  | nil => intro _; trivial
  | cons a as ih =>
    intro hr
    rw [runsOK] at hr ⊢
    by_cases hb : isBlank a
    · rw [if_pos hb] at hr ⊢
      exact ⟨le_trans (Nat.add_le_add_right h 1) hr.1, ih (Nat.add_le_add_right h 1) hr.2⟩
    · rw [if_neg hb] at hr ⊢
      exact ih (le_refl 0) hr

theorem blankFilter_runsOK (l : List Str) : ∀ c, runsOK c (blankFilter c l) := by
  induction l with
  | nil => intro c; trivial
  | cons a as ih =>
    intro c
    rw [blankFilter]
    by_cases hb : isBlank a
    · rw [if_pos hb]
      by_cases hc : c + 1 ≤ 2
      · rw [if_pos hc, runsOK, if_pos hb]
        exact ⟨hc, ih (c + 1)⟩
      · rw [if_neg hc]
        exact runsOK_mono (Nat.le_succ c) (ih (c + 1))
    · rw [if_neg hb, runsOK, if_neg hb]
      exact ih 0

theorem blankFilter_eq_self {l : List Str} : ∀ {c}, runsOK c l → blankFilter c l = l := by
  induction l with
  | nil => intro c _; rfl
  | cons a as ih =>
    intro c hr
    rw [runsOK] at hr
    rw [blankFilter]
    by_cases hb : isBlank a
    · rw [if_pos hb] at hr ⊢
      rw [if_pos hr.1, ih hr.2]
    · rw [if_neg hb] at hr ⊢
      rw [ih hr]

theorem blankFilter_sublist (l : List Str) : ∀ c, (blankFilter c l).Sublist l := by
  induction l with
  | nil => intro c; exact List.Sublist.refl []
  | cons a as ih =>
    intro c
    rw [blankFilter]
    by_cases hb : isBlank a
    · rw [if_pos hb]
      by_cases hc : c + 1 ≤ 2
      · rw [if_pos hc]; exact List.Sublist.cons₂ a (ih (c + 1))
      · rw [if_neg hc]; exact List.Sublist.cons a (ih (c + 1))
    · rw [if_neg hb]; exact List.Sublist.cons₂ a (ih 0)

theorem runsOK_of_append {l t : List Str} : ∀ {c}, runsOK c (l ++ t) → runsOK c l := by
  induction l with
  | nil => intro c _; trivial
  | cons a as ih =>
    intro c hr
    rw [List.cons_append, runsOK] at hr
    rw [runsOK]
    by_cases hb : isBlank a
    · rw [if_pos hb] at hr ⊢
      exact ⟨hr.1, ih hr.2⟩
    · rw [if_neg hb] at hr ⊢
      exact ih hr

/-- `runsOK` survives appending one blank line after a final non-blank line. -/
theorem runsOK_append_blank :
    ∀ {K : List Str} {c}, runsOK c K → K.getLast? ≠ none →
      (∀ z, K.getLast? = some z → isBlank z = false) → runsOK c (K ++ [[]]) := by
  intro K
  induction K with
  | nil => intro c _ h2 _; exact absurd rfl h2
  | cons a as ih =>
    intro c hr _ hlast
    rw [List.cons_append, runsOK]
    rw [runsOK] at hr
    cases as with
    | nil =>
      have hb : isBlank a = false := hlast a rfl
      rw [if_neg (by rw [hb]; exact Bool.false_ne_true)]
      show runsOK 0 [[]]
      rw [runsOK]
      have hbe : isBlank ([] : Str) = true := rfl
      rw [if_pos hbe]
      exact ⟨by norm_num, trivial⟩
    | cons a2 as2 =>
      by_cases hb : isBlank a
      · rw [if_pos hb] at hr ⊢
        refine ⟨hr.1, ih hr.2 (by simp) ?_⟩
        intro z hz
        exact hlast z (by rw [List.getLast?_cons_cons]; exact hz)
      · rw [if_neg hb] at hr ⊢
        refine ih hr (by simp) ?_
        intro z hz
        exact hlast z (by rw [List.getLast?_cons_cons]; exact hz)

/-- Drop the trailing run of empty lines of a line list. -/
def dTB : List Str → List Str
  | [] => []
  | a :: as => if dTB as = [] then (if a = [] then [] else [a]) else a :: dTB as

theorem dTB_getLast_ne_nil : ∀ K : List Str, dTB K = [] ∨
    ∃ z, (dTB K).getLast? = some z ∧ z ≠ [] := by
  intro K
  induction K with
  | nil => exact Or.inl rfl
  | cons a as ih =>
    rw [dTB]
    by_cases hr : dTB as = []
    · rw [if_pos hr]
      by_cases ha : a = []
      · exact Or.inl (by rw [if_pos ha])
      · refine Or.inr ⟨a, ?_, ha⟩
        rw [if_neg ha]; rfl
    · rw [if_neg hr]
      rcases ih with h | ⟨z, hz, hzne⟩
      · exact absurd h hr
      · refine Or.inr ⟨z, ?_, hzne⟩
        cases hrr : dTB as with
        | nil => exact absurd hrr hr
        | cons b bs =>
          rw [hrr] at hz
          rw [List.getLast?_cons_cons]
          exact hz

theorem dTB_eq_self : ∀ {K : List Str}, (∀ z, K.getLast? = some z → z ≠ []) → dTB K = K := by
  intro K
  induction K with
  | nil => intro _; rfl
  | cons a as ih =>
    intro hlast
    cases as with
    | nil =>
      have ha : a ≠ [] := hlast a rfl
      rw [dTB, dTB, if_pos rfl, if_neg ha]
    | cons a2 as2 =>
      have hrec : dTB (a2 :: as2) = a2 :: as2 := by
        refine ih ?_
        intro z hz
        exact hlast z (by rw [List.getLast?_cons_cons]; exact hz)
      rw [dTB, hrec, if_neg (List.cons_ne_nil a2 as2)]

theorem dTB_mem : ∀ {K : List Str} {s : Str}, s ∈ dTB K → s ∈ K := by
  intro K
  induction K with
  | nil => intro s hs; simp [dTB] at hs
  | cons a as ih =>
    intro s hs
    rw [dTB] at hs
    by_cases hr : dTB as = []
    · rw [if_pos hr] at hs
      by_cases ha : a = []
      · rw [if_pos ha] at hs; simp at hs
      · rw [if_neg ha] at hs
        rcases List.mem_singleton.1 hs with h
        exact h ▸ List.mem_cons_self _ _
    · rw [if_neg hr] at hs
      rcases List.mem_cons.1 hs with h | h
      · exact h ▸ List.mem_cons_self _ _
      · exact List.mem_cons_of_mem _ (ih h)

theorem dTB_append_exists : ∀ K : List Str, ∃ t, K = dTB K ++ t := by
  intro K
  induction K with
  | nil => exact ⟨[], rfl⟩
  | cons a as ih =>
    rcases ih with ⟨t, ht⟩
    rw [dTB]
    by_cases hr : dTB as = []
    · rw [if_pos hr]
      by_cases ha : a = []
      · rw [if_pos ha]
        exact ⟨a :: as, rfl⟩
      · rw [if_neg ha]
        exact ⟨as, rfl⟩
    · rw [if_neg hr]
      refine ⟨t, ?_⟩
      rw [List.cons_append, ← ht]

theorem joinNl_ne_nil_of_getLast {K : List Str} {z : Str}
    (hz : K.getLast? = some z) (hzne : z ≠ []) : joinNl K ≠ [] := by
  induction K with
  | nil => simp at hz
  | cons a as ih =>
    cases as with
    | nil =>
      rw [List.getLast?_singleton, Option.some_inj] at hz
      rw [joinNl, hz]; exact hzne
    | cons a2 as2 =>
      have hj : joinNl (a :: a2 :: as2) = a ++ '\n' :: joinNl (a2 :: as2) := rfl
      rw [hj]
      intro hc
      rcases List.append_eq_nil.1 hc with ⟨_, h2⟩
      exact List.noConfusion h2

/-- Right-stripping a newline-join of individually right-stripped lines
removes exactly the trailing empty lines. -/
theorem rstrip_joinNl : ∀ {K : List Str}, (∀ s ∈ K, rstrip s = s) →
    rstrip (joinNl K) = joinNl (dTB K) := by
  intro K
  induction K with
  | nil => intro _; rfl
  | cons a as ih =>
    intro hstrip
    have ha : rstrip a = a := hstrip a (List.mem_cons_self _ _)
    cases as with
    | nil =>
      rw [joinNl, ha]
      rw [show dTB [a] = if a = [] then [] else [a] by simp [dTB]]
      by_cases hae : a = []
      · rw [if_pos hae, hae]; rfl
      · rw [if_neg hae, joinNl]
    | cons a2 as2 =>
      have hrec : rstrip (joinNl (a2 :: as2)) = joinNl (dTB (a2 :: as2)) :=
        ih (fun s hs => hstrip s (List.mem_cons_of_mem _ hs))
      have hj : joinNl (a :: a2 :: as2) = a ++ '\n' :: joinNl (a2 :: as2) := rfl
      rw [hj, rstrip_append]
      have hnlsp : rstrip ('\n' :: joinNl (a2 :: as2)) =
          if rstrip (joinNl (a2 :: as2)) = [] then []
          else '\n' :: rstrip (joinNl (a2 :: as2)) := by
        have h0 : ('\n' :: joinNl (a2 :: as2)) = ['\n'] ++ joinNl (a2 :: as2) := rfl
        rw [h0, rstrip_append]
        by_cases h : rstrip (joinNl (a2 :: as2)) = []
        · rw [if_pos h, if_pos h]; rfl
        · rw [if_neg h, if_neg h]; rfl
      by_cases hcase : dTB (a2 :: as2) = []
      · have htail : rstrip (joinNl (a2 :: as2)) = [] := by
          rw [hrec, hcase]; rfl
        rw [hnlsp, if_pos htail, if_pos rfl, ha]
        conv_rhs => rw [dTB]
        rw [if_pos hcase]
        by_cases hae : a = []
        · rw [if_pos hae, hae]; rfl
        · rw [if_neg hae, joinNl]
      · have htail : rstrip (joinNl (a2 :: as2)) ≠ [] := by
          rw [hrec]
          rcases dTB_getLast_ne_nil (a2 :: as2) with h | ⟨z, hz, hzne⟩
          · exact absurd h hcase
          · exact joinNl_ne_nil_of_getLast hz hzne
        rw [hnlsp, if_neg htail, if_neg (by intro hc; exact List.noConfusion hc), hrec]
        conv_rhs => rw [dTB]
        rw [if_neg hcase]
        cases hdd : dTB (a2 :: as2) with
        | nil => exact absurd hdd hcase
        | cons b bs =>
          have hj2 : joinNl (a :: b :: bs) = a ++ '\n' :: joinNl (b :: bs) := rfl
          rw [hj2]

theorem joinNl_append_empty : ∀ {K : List Str}, K ≠ [] →
    joinNl (K ++ [[]]) = joinNl K ++ ['\n'] := by
  intro K
  induction K with
  | nil => intro h; exact absurd rfl h
  | cons a as ih =>
    intro _
    cases as with
    | nil => rfl
    | cons a2 as2 =>
      have h1 : joinNl ((a :: a2 :: as2) ++ [[]]) =
          a ++ '\n' :: joinNl ((a2 :: as2) ++ [[]]) := rfl
      have h2 : joinNl (a :: a2 :: as2) = a ++ '\n' :: joinNl (a2 :: as2) := rfl
      rw [h1, h2, ih (by intro hc; exact List.noConfusion hc), List.append_assoc]
      rfl

theorem map_self_of_mem {f : Str → Str} : ∀ {l : List Str}, (∀ s ∈ l, f s = s) →
    l.map f = l := by
  intro l
  induction l with
  | nil => intro _; rfl
  | cons a as ih =>
    intro h
    rw [List.map_cons, h a (List.mem_cons_self _ _), ih (fun s hs => h s (List.mem_cons_of_mem _ hs))]

/-- Fixpoint property: `normalize_whitespace` maps the join of a line list
that is already fully normalized (each line right-stripped, blank runs of
length at most 2, no trailing blank line) plus a final newline to itself. -/
theorem normalize_whitespace_fix {K : List Str} (hne : K ≠ [])
    (hstrip : ∀ s ∈ K, rstrip s = s) (hnl : ∀ s ∈ K, '\n' ∉ s)
    (hruns : runsOK 0 K) (hlast : ∀ z, K.getLast? = some z → z ≠ []) :
    normalize_whitespace (joinNl K ++ ['\n']) = joinNl K ++ ['\n'] := by
  have hlastne : K.getLast? ≠ none := by
    cases hk : K with
    | nil => exact absurd hk hne
    | cons a as => simp [hk, List.getLast?_eq_getLast]
  have hlastblank : ∀ z, K.getLast? = some z → isBlank z = false := by
    intro z hz
    have hzK : z ∈ K := List.mem_of_getLast?_eq_some hz
    exact isBlank_false_of_rstrip_self (hstrip z hzK) (hlast z hz)
  rw [normalize_whitespace]
  rw [splitNl_append_nl, splitNl_joinNl hne hnl]
  rw [List.map_append, map_self_of_mem hstrip]
  rw [show ([[]] : List Str).map rstrip = [[]] from rfl]
  rw [blankFilter_eq_self (runsOK_append_blank hruns hlastne hlastblank)]
  rw [joinNl_append_empty hne]
  rw [rstrip_append]
  rw [if_pos (by rfl : rstrip ['\n'] = [])]
  rw [rstrip_joinNl hstrip, dTB_eq_self hlast]

/-- C4: whitespace normalization is idempotent. -/
theorem normalize_whitespace_idem (x : Str) :
    normalize_whitespace (normalize_whitespace x) = normalize_whitespace x := by
  have hL : ∀ s ∈ (splitNl x).map rstrip, rstrip s = s := by
    intro s hs
    rcases List.mem_map.1 hs with ⟨t, _, ht⟩
    rw [← ht]; exact rstrip_idem t
  have hLnl : ∀ s ∈ (splitNl x).map rstrip, '\n' ∉ s := by
    intro s hs
    rcases List.mem_map.1 hs with ⟨t, htm, ht⟩
    intro hmem
    rw [← ht] at hmem
    exact nl_not_mem_splitNl x t htm (mem_of_mem_rstrip hmem)
  have hKsub := blankFilter_sublist ((splitNl x).map rstrip) 0
  have hKstrip : ∀ s ∈ blankFilter 0 ((splitNl x).map rstrip), rstrip s = s :=
    fun s hs => hL s (hKsub.subset hs)
  have hKnl : ∀ s ∈ blankFilter 0 ((splitNl x).map rstrip), '\n' ∉ s :=
    fun s hs => hLnl s (hKsub.subset hs)
  have hstep : normalize_whitespace x =
      joinNl (dTB (blankFilter 0 ((splitNl x).map rstrip))) ++ ['\n'] := by
    rw [normalize_whitespace, rstrip_joinNl hKstrip]
  by_cases hnil : dTB (blankFilter 0 ((splitNl x).map rstrip)) = []
  · rw [hstep, hnil]
    decide
  · rw [hstep]
    rcases dTB_getLast_ne_nil (blankFilter 0 ((splitNl x).map rstrip)) with h | ⟨z, hz, hzne⟩
    · exact absurd h hnil
    · refine normalize_whitespace_fix hnil ?_ ?_ ?_ ?_
      · exact fun s hs => hKstrip s (dTB_mem hs)
      · exact fun s hs => hKnl s (dTB_mem hs)
      · rcases dTB_append_exists (blankFilter 0 ((splitNl x).map rstrip)) with ⟨t, ht⟩
        have := blankFilter_runsOK ((splitNl x).map rstrip) 0
        rw [ht] at this
        exact runsOK_of_append this
      · intro z2 hz2
        rw [hz] at hz2
        rw [Option.some_inj] at hz2
        rw [← hz2]; exact hzne

/-! ### Heading normalizer (`MarkdownNormalizer.normalize_headings`)

A line is a heading candidate iff it matches `^(#{1,6})\s+(.+)$`: one to six
hash marks, at least one whitespace character, then a non-empty remainder.
When the remainder holds a non-whitespace character, greediness makes the
title start at the first non-whitespace character and extend to the end of
the line; when the remainder is whitespace only, the greedy `\s+` backtracks
one character and the title is that final whitespace character (possible
whenever the whitespace run has length at least two). -/

/-- Decimal rendering of a number, for the warning messages. -/
def natStr (n : Nat) : Str := Nat.toDigits 10 n

/-- The heading regular expression `^(#{1,6})\s+(.+)$` applied to one line,
returning level and title on a match.  The greedy `\s+` backtracks: when the
remainder after the hash marks is whitespace only, the engine gives one
character back and `(.+)` captures that final whitespace character — so such
a line still matches provided the whitespace run has length at least two
(the lines fed to this function come from a newline split and contain no
newline, so `.` matches every remaining character). -/
def matchHeading (line : Str) : Option (Nat × Str) :=
  let n := (line.takeWhile (fun c => c = '#')).length
  let rest := line.dropWhile (fun c => c = '#')
  let ws := rest.takeWhile pyIsSpace
  let title := rest.dropWhile pyIsSpace
  if 1 ≤ n ∧ n ≤ 6 ∧ ws ≠ [] then
    if title ≠ [] then some (n, title)
    else if 2 ≤ ws.length then some (n, rest.drop (rest.length - 1))
    else none
  else none

/-- Warning emitted when demoting a repeated H1. -/
def msgMultiH1 (title : Str) : Str :=
  str "Multiple H1 headings found, converted '" ++ title ++ str "' to H2"

/-- Warning emitted when clamping a heading level jump. -/
def msgJump (lastLevel origLevel : Nat) (title : Str) (newLevel : Nat) : Str :=
  str "Heading level jump detected (H" ++ natStr lastLevel ++ str " -> H" ++
    natStr origLevel ++ str "), adjusted '" ++ title ++ str "' to H" ++ natStr newLevel

/-- One loop iteration of `normalize_headings`: given the running `h1_count`
and `last_level`, produce the rewritten line, the emitted warnings, and the
updated state.  Mirrors the source: the multiple-H1 rule runs first (the
count is incremented, then compared), then the level-jump rule on the
possibly-demoted level. -/
def processLine (h1 ll : Nat) (line : Str) : Str × List Str × Nat × Nat :=
  match matchHeading line with
  | none => (line, [], h1, ll)
  | some (lv0, title) =>
    let h1n := if lv0 = 1 then h1 + 1 else h1
    let line1 := if lv0 = 1 ∧ h1 > 0 then str "## " ++ title else line
    let warns1 : List Str := if lv0 = 1 ∧ h1 > 0 then [msgMultiH1 title] else []
    let lv1 := if lv0 = 1 ∧ h1 > 0 then 2 else lv0
    let line2 := if ll > 0 ∧ lv1 > ll + 1 then List.replicate (ll + 1) '#' ++ ' ' :: title
      else line1
    let warns2 : List Str := if ll > 0 ∧ lv1 > ll + 1 then [msgJump ll lv1 title (ll + 1)]
      else []
    let lv2 := if ll > 0 ∧ lv1 > ll + 1 then ll + 1 else lv1
    (line2, warns1 ++ warns2, h1n, lv2)

/-- The line loop of `normalize_headings`. -/
def nhGo (h1 ll : Nat) : List Str → List Str × List Str
  | [] => ([], [])
  | line :: rest =>
    let p := processLine h1 ll line
    let q := nhGo p.2.2.1 p.2.2.2 rest
    (p.1 :: q.1, p.2.1 ++ q.2)

/-- `MarkdownNormalizer.normalize_headings`. -/
def normalize_headings (content : Str) : Str × List Str :=
  (joinNl (nhGo 0 0 (splitNl content)).1, (nhGo 0 0 (splitNl content)).2)

/-- The line is an H1 heading candidate. -/
def isH1 (line : Str) : Bool :=
  match matchHeading line with
  | some (1, _) => true
  | _ => false

/-- Boolean prefix test on character lists. -/
def listBegins : Str → Str → Bool
  | [], _ => true
  | _ :: _, [] => false
  | a :: as, b :: bs => a = b && listBegins as bs

/-- The warning mentions "Multiple H1" (formalized: it begins with the fixed
text of the multiple-H1 warning). -/
def mH1Warn (w : Str) : Bool := listBegins (str "Multiple H1 headings found") w

theorem mH1Warn_msgJump (a b c : Nat) (t : Str) : mH1Warn (msgJump a b t c) = false := rfl

theorem listBegins_append {p a : Str} (b : Str) (h : listBegins p a = true) :
    listBegins p (a ++ b) = true := by
  induction p generalizing a with
  | nil => rfl
  | cons x xs ih =>
    cases a with
    | nil => exact absurd h (by simp [listBegins])
    | cons y ys =>
      rw [listBegins] at h
      rcases (Bool.and_eq_true _ _ ▸ h : _ ∧ _) with ⟨h1, h2⟩
      rw [List.cons_append, listBegins, h1, Bool.true_and]
      exact ih h2

theorem mH1Warn_msgMultiH1 (t : Str) : mH1Warn (msgMultiH1 t) = true := by
  rw [mH1Warn, msgMultiH1]
  have h : str "Multiple H1 headings found, converted '" ++ t ++ str "' to H2" =
      str "Multiple H1 headings found, converted '" ++ (t ++ str "' to H2") := by
    rw [List.append_assoc]
  rw [h]
  exact listBegins_append _ (by decide)

theorem matchHeading_inv {line : Str} {lv : Nat} {t : Str}
    (h : matchHeading line = some (lv, t)) :
    1 ≤ lv ∧ lv ≤ 6 ∧ t ≠ [] ∧ (∀ c ∈ t, c ∈ line) := by
  rw [matchHeading] at h
  split at h
  · rename_i hcond
    obtain ⟨hc1, hc2, hc3⟩ := hcond
    split at h
    · rename_i htne
      rw [Option.some_inj, Prod.mk.injEq] at h
      obtain ⟨h1, h2⟩ := h
      subst h1
      subst h2
      refine ⟨hc1, hc2, htne, ?_⟩
      intro c hc
      exact mem_of_mem_dropWhile (mem_of_mem_dropWhile hc)
    · split at h
      · rename_i hws2
        rw [Option.some_inj, Prod.mk.injEq] at h
        obtain ⟨h1, h2⟩ := h
        subst h1
        subst h2
        refine ⟨hc1, hc2, ?_, ?_⟩
        · intro hdrop
          have hlen := congrArg List.length hdrop
          rw [List.length_drop, List.length_nil] at hlen
          have hwle : ((line.dropWhile (fun c => c = '#')).takeWhile pyIsSpace).length ≤
              (line.dropWhile (fun c => c = '#')).length :=
            (List.takeWhile_sublist _).length_le
          omega
        · intro c hc
          exact mem_of_mem_dropWhile (List.mem_of_mem_drop hc)
      · exact absurd h (by simp)
  · exact absurd h (by simp)

theorem matchHeading_level {line : Str} {lv : Nat} {t : Str}
    (h : matchHeading line = some (lv, t)) :
    lv = (line.takeWhile (fun c => c = '#')).length := by
  rw [matchHeading] at h
  split at h
  · split at h
    · rw [Option.some_inj, Prod.mk.injEq] at h
      exact h.1.symm
    · split at h
      · rw [Option.some_inj, Prod.mk.injEq] at h
        exact h.1.symm
      · exact absurd h (by simp)
  · exact absurd h (by simp)

/-- The heading matcher on the concrete corner cases of the backtracking
rule, as Python's `re` resolves them. -/
theorem matchHeading_backtracking :
    matchHeading (str "#  ") = some (1, str " ") ∧
    matchHeading (str "# ") = none ∧
    matchHeading (str "#") = none ∧
    matchHeading (str "##   ") = some (2, str " ") ∧
    matchHeading (str "# a ") = some (1, str "a ") := by
  refine ⟨?_, ?_, ?_, ?_, ?_⟩ <;> decide

theorem takeWhile_hash_replicate (k : Nat) (t : Str) :
    ((List.replicate k '#' ++ ' ' :: t).takeWhile (fun c => c = '#')).length = k := by
  induction k with
  | zero => simp [List.takeWhile]
  | succ n ih =>
    rw [List.replicate_succ, List.cons_append, List.takeWhile_cons]
    simp only [decide_True, if_pos]
    rw [List.length_cons, ih]

theorem dropWhile_hash_replicate (k : Nat) (t : Str) :
    (List.replicate k '#' ++ ' ' :: t).dropWhile (fun c => c = '#') = ' ' :: t := by
  induction k with
  | zero => simp [List.dropWhile]
  | succ n ih =>
    rw [List.replicate_succ, List.cons_append, List.dropWhile_cons]
    simp [ih]

theorem isH1_of_none {line : Str} (h : matchHeading line = none) : isH1 line = false := by
  rw [isH1]
  split
  · rename_i heq
    rw [h] at heq
    exact absurd heq (by simp)
  · rfl

theorem isH1_of_one {line : Str} {t : Str} (h : matchHeading line = some (1, t)) :
    isH1 line = true := by
  rw [isH1, h]

theorem isH1_of_ne_one {line : Str} {lv : Nat} {t : Str}
    (h : matchHeading line = some (lv, t)) (hlv : lv ≠ 1) : isH1 line = false := by
  rw [isH1, h]
  cases lv with
  | zero => rfl
  | succ n =>
    cases n with
    | zero => exact absurd rfl hlv
    | succ m => rfl

/-- A rewritten heading line with at least two hash marks is never an H1
candidate, whatever the title (including a whitespace-only one). -/
theorem isH1_replicate_ge2 {k : Nat} (t : Str) (hk : 2 ≤ k) :
    isH1 (List.replicate k '#' ++ ' ' :: t) = false := by
  rcases hm : matchHeading (List.replicate k '#' ++ ' ' :: t) with _ | ⟨lv, tt⟩
  · exact isH1_of_none hm
  · refine isH1_of_ne_one hm ?_
    have := matchHeading_level hm
    rw [takeWhile_hash_replicate] at this
    omega

/-- Invariant of the heading loop: the number of H1 lines in the output is 1
when the loop starts with `h1_count = 0` and sees at least one H1 (0 when it
sees none), and every further H1 line produces exactly one multiple-H1
warning. -/
theorem nhGo_invariant (lines : List Str) : ∀ h1 ll : Nat,
    (nhGo h1 ll lines).1.countP isH1 =
      (if h1 = 0 then min (lines.countP isH1) 1 else 0) ∧
    (nhGo h1 ll lines).2.countP mH1Warn =
      lines.countP isH1 - (if h1 = 0 then min (lines.countP isH1) 1 else 0) := by
  induction lines with
  | nil =>
    intro h1 ll
    by_cases h : h1 = 0 <;> simp [nhGo, h]
  | cons line rest ih =>
    intro h1 ll
    rcases hm : matchHeading line with _ | ⟨lv0, title⟩
    · -- non-heading line: passes through unchanged, no warnings, same state
      have hp : processLine h1 ll line = (line, [], h1, ll) := by
        simp [processLine, hm]
      have hH1 : isH1 line = false := isH1_of_none hm
      have hstep : nhGo h1 ll (line :: rest) =
          (line :: (nhGo h1 ll rest).1, (nhGo h1 ll rest).2) := by
        simp [nhGo, hp]
      obtain ⟨ih1, ih2⟩ := ih h1 ll
      have hcount : (line :: rest).countP isH1 = rest.countP isH1 := by
        rw [List.countP_cons]; simp [hH1]
      refine ⟨?_, ?_⟩
      · rw [hstep, hcount, List.countP_cons]
        simp [hH1, ih1]
      · rw [hstep, hcount]
        exact ih2
    · by_cases hone : lv0 = 1
      · subst hone
        have hH1line : isH1 line = true := isH1_of_one hm
        have hcount : (line :: rest).countP isH1 = rest.countP isH1 + 1 := by
          rw [List.countP_cons]; simp [hH1line]
        by_cases hh1 : h1 > 0
        · -- demoted second (or later) H1
          have hguard : ¬ (ll > 0 ∧ 2 > ll + 1) := by omega
          have hp : processLine h1 ll line =
              (str "## " ++ title, [msgMultiH1 title], h1 + 1, 2) := by
            simp [processLine, hm, hh1, hguard]
          have hline2 : isH1 (str "## " ++ title) = false := by
            have hrepl : str "## " ++ title = List.replicate 2 '#' ++ ' ' :: title := rfl
            rw [hrepl]
            exact isH1_replicate_ge2 title (by norm_num)
          have hstep : nhGo h1 ll (line :: rest) =
              ((str "## " ++ title) :: (nhGo (h1 + 1) 2 rest).1,
               msgMultiH1 title :: (nhGo (h1 + 1) 2 rest).2) := by
            simp [nhGo, hp]
          obtain ⟨ih1, ih2⟩ := ih (h1 + 1) 2
          have h1ne : ¬ (h1 = 0) := by omega
          have h1ne2 : ¬ (h1 + 1 = 0) := by omega
          refine ⟨?_, ?_⟩
          · rw [hstep, List.countP_cons]
            simp [hline2, ih1, h1ne, h1ne2]
          · rw [hstep, List.countP_cons, hcount]
            simp [mH1Warn_msgMultiH1, ih2, h1ne, h1ne2]
        · -- first H1: kept as is
          have h1z : h1 = 0 := by omega
          subst h1z
          have hp : processLine 0 ll line = (line, [], 1, 1) := by
            have hg1 : ¬ ((1:Nat) = 1 ∧ (0:Nat) > 0) := by simp
            have hg2 : ¬ (ll > 0 ∧ 1 > ll + 1) := by omega
            simp [processLine, hm, hg1, hg2]
          have hstep : nhGo 0 ll (line :: rest) =
              (line :: (nhGo 1 1 rest).1, (nhGo 1 1 rest).2) := by
            simp [nhGo, hp]
          obtain ⟨ih1, ih2⟩ := ih 1 1
          refine ⟨?_, ?_⟩
          · rw [hstep, List.countP_cons, hcount]
            simp [hH1line, ih1]
          · rw [hstep, hcount]
            simp [ih2]
      · -- heading of level at least 2
        have hH1line : isH1 line = false := isH1_of_ne_one hm hone
        have hcount : (line :: rest).countP isH1 = rest.countP isH1 := by
          rw [List.countP_cons]; simp [hH1line]
        have hg1 : ¬ (lv0 = 1 ∧ h1 > 0) := fun hc => hone hc.1
        by_cases hjump : ll > 0 ∧ lv0 > ll + 1
        · have hp : processLine h1 ll line =
              (List.replicate (ll + 1) '#' ++ ' ' :: title,
               [msgJump ll lv0 title (ll + 1)], h1, ll + 1) := by
            simp [processLine, hm, hone, hg1, hjump]
          have hline2 : isH1 (List.replicate (ll + 1) '#' ++ ' ' :: title) = false :=
            isH1_replicate_ge2 title (by omega)
          have hstep : nhGo h1 ll (line :: rest) =
              ((List.replicate (ll + 1) '#' ++ ' ' :: title) :: (nhGo h1 (ll + 1) rest).1,
               msgJump ll lv0 title (ll + 1) :: (nhGo h1 (ll + 1) rest).2) := by
            simp [nhGo, hp]
          obtain ⟨ih1, ih2⟩ := ih h1 (ll + 1)
          refine ⟨?_, ?_⟩
          · rw [hstep, List.countP_cons, hcount]
            simp [hline2, ih1]
          · rw [hstep, List.countP_cons, hcount]
            simp [mH1Warn_msgJump, ih2]
        · have hp : processLine h1 ll line = (line, [], h1, lv0) := by
            simp [processLine, hm, hone, hg1, hjump]
          have hstep : nhGo h1 ll (line :: rest) =
              (line :: (nhGo h1 lv0 rest).1, (nhGo h1 lv0 rest).2) := by
            simp [nhGo, hp]
          obtain ⟨ih1, ih2⟩ := ih h1 lv0
          refine ⟨?_, ?_⟩
          · rw [hstep, List.countP_cons, hcount]
            simp [hH1line, ih1]
          · rw [hstep, hcount]
            exact ih2

theorem processLine_line_nlfree {h1 ll : Nat} {line : Str} (h : '\n' ∉ line) :
    '\n' ∉ (processLine h1 ll line).1 := by
  rcases hm : matchHeading line with _ | ⟨lv0, title⟩
  · simp [processLine, hm, h]
  · obtain ⟨_, _, _, htmem⟩ := matchHeading_inv hm
    have htnl : '\n' ∉ title := fun hc => h (htmem _ hc)
    have hhash : '\n' ∉ str "## " := by decide
    by_cases c1 : lv0 = 1 ∧ h1 > 0
    · by_cases c2 : ll > 0 ∧ (2:Nat) > ll + 1
      · simp only [processLine, hm, if_pos c1, if_pos c2]
        simp [List.mem_append, List.mem_replicate, htnl]
      · simp only [processLine, hm, if_pos c1, if_neg c2]
        simp [List.mem_append, htnl, hhash]
    · by_cases c2 : ll > 0 ∧ lv0 > ll + 1
      · simp only [processLine, hm, if_neg c1, if_pos c2]
        simp [List.mem_append, List.mem_replicate, htnl]
      · simp only [processLine, hm, if_neg c1, if_neg c2]
        simp [h]

theorem nhGo_nlfree {lines : List Str} (h : ∀ s ∈ lines, '\n' ∉ s) :
    ∀ h1 ll : Nat, ∀ s ∈ (nhGo h1 ll lines).1, '\n' ∉ s := by
  induction lines with
  | nil => intro h1 ll s hs; simp [nhGo] at hs
  | cons line rest ih =>
    intro h1 ll s hs
    have hstep : (nhGo h1 ll (line :: rest)).1 =
        (processLine h1 ll line).1 ::
          (nhGo (processLine h1 ll line).2.2.1 (processLine h1 ll line).2.2.2 rest).1 := rfl
    rw [hstep] at hs
    rcases List.mem_cons.1 hs with h1s | h1s
    · subst h1s
      exact processLine_line_nlfree (h line (List.mem_cons_self _ _))
    · exact ih (fun s2 hs2 => h s2 (List.mem_cons_of_mem _ hs2)) _ _ s h1s

theorem nhGo_length (lines : List Str) : ∀ h1 ll : Nat,
    (nhGo h1 ll lines).1.length = lines.length := by
  induction lines with
  | nil => intro h1 ll; rfl
  | cons line rest ih =>
    intro h1 ll
    have hstep : (nhGo h1 ll (line :: rest)).1 =
        (processLine h1 ll line).1 ::
          (nhGo (processLine h1 ll line).2.2.1 (processLine h1 ll line).2.2.2 rest).1 := rfl
    rw [hstep, List.length_cons, ih]
    rfl

/-- C5: an input with exactly two H1 heading lines normalizes to output with
exactly one H1 heading line, and exactly one of the emitted warnings is a
"Multiple H1" warning (formalized: begins with "Multiple H1 headings found");
in particular "# A\n\n# B\n" yields "# A\n\n## B\n" with a single warning. -/
theorem normalize_headings_multiple_h1 :
    (∀ content : Str, (splitNl content).countP isH1 = 2 →
      (splitNl (normalize_headings content).1).countP isH1 = 1 ∧
      ((normalize_headings content).2).countP mH1Warn = 1) ∧
    normalize_headings (str "# A\n\n# B\n") =
      (str "# A\n\n## B\n", [msgMultiH1 (str "B")]) ∧
    (normalize_headings (str "# A\n\n# B\n")).2.length = 1 := by
  refine ⟨?_, by decide, by decide⟩
  intro content hcount
  obtain ⟨inv1, inv2⟩ := nhGo_invariant (splitNl content) 0 0
  rw [hcount] at inv1 inv2
  have hout_nl : ∀ s ∈ (nhGo 0 0 (splitNl content)).1, '\n' ∉ s :=
    nhGo_nlfree (nl_not_mem_splitNl content) 0 0
  have hout_ne : (nhGo 0 0 (splitNl content)).1 ≠ [] := by
    intro hc
    have hlen := nhGo_length (splitNl content) 0 0
    rw [hc] at hlen
    exact splitNl_ne_nil content (List.length_eq_zero.1 hlen.symm)
  refine ⟨?_, ?_⟩
  · rw [normalize_headings]
    rw [splitNl_joinNl hout_ne hout_nl]
    simpa using inv1
  · simpa using inv2

/-- C5 witness: the general statement applied to the spec's example input. -/
theorem normalize_headings_multiple_h1_witness :
    (splitNl (str "# A\n\n# B\n")).countP isH1 = 2 ∧
    ((splitNl (normalize_headings (str "# A\n\n# B\n")).1).countP isH1 = 1 ∧
     ((normalize_headings (str "# A\n\n# B\n")).2).countP mH1Warn = 1) :=
  ⟨by decide, normalize_headings_multiple_h1.1 (str "# A\n\n# B\n") (by decide)⟩

/-! ### Filename sanitizer (`doc2mkdocs/utils/filename_sanitizer.py`) -/

/-- `pathlib.Path(s).name`: the final path component (the inputs exercised
here are plain file names; pathlib's trailing-slash and drive handling is out
of scope). -/
def pyPathFinal (s : Str) : Str := (s.reverse.takeWhile (fun c => c ≠ '/')).reverse

/-- `pathlib.Path` stem/suffix split of a file name: the suffix starts at the
last dot, provided that dot is neither the first nor the last character. -/
def pySplitExt (name : Str) : Str × Str :=
  match name.reverse.findIdx? (fun c => c = '.') with
  | none => (name, [])
  | some j =>
    let i := name.length - 1 - j
    if 0 < i ∧ i < name.length - 1 then (name.take i, name.drop i) else (name, [])

/-- `re.sub(r"-+", "-", name)`: collapse runs of dashes. -/
def collapseDashes : Str → Str
  | [] => []
  | '-' :: '-' :: rest => collapseDashes ('-' :: rest)
  | c :: rest => c :: collapseDashes rest

/-- Python `name.strip("-")`. -/
def stripDashes (l : Str) : Str :=
  ((l.dropWhile (fun c => c = '-')).reverse.dropWhile (fun c => c = '-')).reverse

/-- The character class kept by `re.sub(r"[^a-zA-Z0-9\-.]", "", name)`. -/
def keepFilenameChar (c : Char) : Bool := c.isAlphanum || c = '-' || c = '.'

/-- `sanitize_filename(filename, lowercase)` (the Python default for
`lowercase` is `True`; the flag is passed positionally here). -/
def sanitize_filename (filename : Str) (lowercase : Bool) : Str :=
  let name0 := (pySplitExt (pyPathFinal filename)).1
  let ext := (pySplitExt (pyPathFinal filename)).2
  let n1 := name0.map (fun c => if c = ' ' then '-' else c)
  let n2 := n1.map (fun c => if c = '_' then '-' else c)
  let n3 := n2.filter keepFilenameChar
  let n4 := collapseDashes n3
  let n5 := stripDashes n4
  let n6 := if lowercase then n5.map Char.toLower else n5
  let n7 := if n6 = [] then str "unnamed" else n6
  n7 ++ ext

/-- C8: `sanitize_filename` splits stem and extension, replaces spaces and
underscores with hyphens, strips characters outside `[A-Za-z0-9-.]`,
collapses hyphen runs, trims leading/trailing hyphens, lowercases the stem
iff requested, falls back to "unnamed" for an empty stem and reattaches the
extension (the listed steps are the definition above, applied in that order);
the five example inputs of the specification evaluate as claimed. -/
theorem sanitize_filename_examples :
    sanitize_filename (str "My Document.docx") true = str "my-document.docx" ∧
    sanitize_filename (str "Doc@#$%ument!.pdf") true = str "document.pdf" ∧
    sanitize_filename (str "my---document.txt") true = str "my-document.txt" ∧
    sanitize_filename (str "@#$.txt") true = str "unnamed.txt" ∧
    sanitize_filename (str "MyDocument.pdf") false = str "MyDocument.pdf" := by
  refine ⟨?_, ?_, ?_, ?_, ?_⟩ <;> decide

/-! ### Front matter (`MarkdownNormalizer.add_front_matter`) -/

/-- `MarkdownNormalizer.add_front_matter`: build the line list
`["---", "title: ..", "source: ..", "converted_at: ..", extras.., "---", ""]`,
join it with newlines and prepend the result to the content.  `extra` models
the `**extra` keyword arguments in insertion order. -/
def add_front_matter (content title source converted_at : Str)
    (extra : List (Str × Str)) : Str :=
  joinNl ([str "---", str "title: " ++ title, str "source: " ++ source,
           str "converted_at: " ++ converted_at] ++
          extra.map (fun kv => kv.1 ++ str ": " ++ kv.2) ++ [str "---", []]) ++ content

/-- The output shape asserted by the specification (C3), modelled from the
spec: opening delimiter line, the three header lines, extras, closing
delimiter line, then a blank line, then the content. -/
def add_front_matter_claimed (content title source converted_at : Str)
    (extra : List (Str × Str)) : Str :=
  joinNl ([str "---", str "title: " ++ title, str "source: " ++ source,
           str "converted_at: " ++ converted_at] ++
          extra.map (fun kv => kv.1 ++ str ": " ++ kv.2) ++ [str "---"]) ++
    str "\n\n" ++ content

/-- C3 counterexample: the code does not insert a blank line between the
closing delimiter and the content; the claimed shape differs already for
content "Hello". -/
theorem add_front_matter_no_blank_line_cex :
    add_front_matter (str "Hello") (str "T") (str "S") (str "C") [] ≠
      add_front_matter_claimed (str "Hello") (str "T") (str "S") (str "C") [] ∧
    add_front_matter (str "Hello") (str "T") (str "S") (str "C") [] =
      str "---\ntitle: T\nsource: S\nconverted_at: C\n---\nHello" := by
  refine ⟨?_, ?_⟩ <;> decide

/-- C3 (amended): the Front-Matter Injector returns the delim'd block —
opening `---` line, `title:`, `source:`, `converted_at:` lines, one line per
extra key in insertion order, closing `---` line — joined by newlines, then a
single newline, then the original content unchanged: no blank line is
inserted before the content. -/
theorem add_front_matter_layout (content title source converted_at : Str)
    (extra : List (Str × Str)) :
    add_front_matter content title source converted_at extra =
      joinNl ([str "---", str "title: " ++ title, str "source: " ++ source,
               str "converted_at: " ++ converted_at] ++
              extra.map (fun kv => kv.1 ++ str ": " ++ kv.2) ++ [str "---"]) ++
        ['\n'] ++ content := by
  rw [add_front_matter]
  rw [show ([str "---", str "title: " ++ title, str "source: " ++ source,
      str "converted_at: " ++ converted_at] ++
      extra.map (fun kv => kv.1 ++ str ": " ++ kv.2) ++ [str "---", []]) =
      (([str "---", str "title: " ++ title, str "source: " ++ source,
      str "converted_at: " ++ converted_at] ++
      extra.map (fun kv => kv.1 ++ str ": " ++ kv.2) ++ [str "---"]) ++ [[]]) by
    simp [List.append_assoc]]
  rw [joinNl_append_empty (by simp), List.append_assoc]

/-! ### Conversion report (`doc2mkdocs/core/report.py`)

The wall-clock fields `start_time` / `end_time` of the Python dataclass are
not touched by `add_file_report` and are omitted from the model. -/

structure FileReport where
  source_file : Str
  output_file : Option Str
  success : Bool
  warnings : List Str := []
  errors : List Str := []
  quality_score : ℚ := 1
  converter_used : Str := []
  conversion_time_ms : ℚ := 0
deriving DecidableEq

structure ConversionReport where
  total_files : Nat := 0
  successful : Nat := 0
  failed : Nat := 0
  files : List FileReport := []
  average_quality_score : ℚ := 0
deriving DecidableEq

/-- `ConversionReport._update_average_quality`. -/
def updateAverage (r : ConversionReport) : ConversionReport :=
  if r.files ≠ [] then
    { r with average_quality_score :=
        (r.files.map (fun f => f.quality_score)).sum / r.files.length }
  else r

/-- `ConversionReport.add_file_report`. -/
def add_file_report (r : ConversionReport) (fr : FileReport) : ConversionReport :=
  updateAverage { r with
    files := r.files ++ [fr],
    total_files := r.total_files + 1,
    successful := if fr.success then r.successful + 1 else r.successful,
    failed := if fr.success then r.failed else r.failed + 1 }

/-- A file report carrying only a quality score, as used by the spec's
average-quality examples. -/
def exFR (q : ℚ) : FileReport :=
  { source_file := [], output_file := none, success := true, quality_score := q }

/-- C7: after every call to `add_file_report` the stored average equals the
sum of all stored quality scores divided by their count (scores are modelled
as exact rationals; the Python code recomputes `sum/len` from scratch on
every addition, so the identity is independent of the arithmetic model); in
particular adding scores [1.0, 0.5] gives 0.75 and a further 0.2 gives
(1.0+0.5+0.2)/3. -/
theorem add_file_report_average :
    (∀ (r : ConversionReport) (fr : FileReport),
      (add_file_report r fr).average_quality_score =
        ((r.files ++ [fr]).map (fun f => f.quality_score)).sum / (r.files.length + 1)) ∧
    (add_file_report (add_file_report {} (exFR 1)) (exFR (1/2))).average_quality_score
      = 3/4 ∧
    (add_file_report (add_file_report (add_file_report {} (exFR 1)) (exFR (1/2)))
        (exFR (1/5))).average_quality_score = (1 + 1/2 + 1/5) / 3 := by
  refine ⟨?_, ?_, ?_⟩
  · intro r fr
    rw [add_file_report, updateAverage]
    rw [if_pos (by simp)]
    simp
  · norm_num [add_file_report, updateAverage, exFR]
    rw [if_neg (List.cons_ne_nil _ _)]
  · norm_num [add_file_report, updateAverage, exFR]
    rw [if_neg (List.cons_ne_nil _ _)]
    norm_num

/-! ### Conversion results (`any2md/core/base_converter.py`) -/

/-- `ConversionResult` dataclass.  Image byte strings are abstracted to an
uninterpreted `Nat` tag (their content is never inspected by the modelled
code paths, only written to disk). -/
structure ConversionResult where
  success : Bool
  markdown_content : Str := []
  images : List (Str × Nat) := []
  warnings : List Str := []
  errors : List Str := []
  quality_score : ℚ := 1
  metadata : List (Str × Str) := []
deriving DecidableEq

/-- `ConversionResult.add_warning`: append the message and lower the quality
score by 0.05 with floor 0. -/
def add_warning (r : ConversionResult) (m : Str) : ConversionResult :=
  { r with warnings := r.warnings ++ [m], quality_score := max 0 (r.quality_score - 1/20) }

/-- `ConversionResult.add_error`: append the message, clear the success flag
and lower the quality score by 0.2 with floor 0. -/
def add_error (r : ConversionResult) (m : Str) : ConversionResult :=
  { r with errors := r.errors ++ [m], success := false,
           quality_score := max 0 (r.quality_score - 1/5) }

/-- A call to one of the two mutating methods of `ConversionResult`. -/
inductive ResultOp where
  | warn (m : Str)
  | err (m : Str)

def applyOp (r : ConversionResult) : ResultOp → ConversionResult
  | .warn m => add_warning r m
  | .err m => add_error r m

/-- A sequence of `add_warning` / `add_error` calls. -/
def applyOps (r : ConversionResult) (ops : List ResultOp) : ConversionResult :=
  ops.foldl applyOp r

/-- C10: starting from a result with no errors, any sequence of `add_warning`
and `add_error` calls maintains the invariant that a non-empty error list
implies `success = false`; no operation restores `success`. -/
theorem conversionResult_error_invariant (r0 : ConversionResult) (ops : List ResultOp)
    (h0 : r0.errors = []) :
    (applyOps r0 ops).errors ≠ [] → (applyOps r0 ops).success = false := by
  have main : ∀ (ops : List ResultOp) (r : ConversionResult),
      (r.errors ≠ [] → r.success = false) →
      ((applyOps r ops).errors ≠ [] → (applyOps r ops).success = false) := by
    intro ops
    induction ops with
    | nil => intro r h; exact h
    | cons op rest ih =>
      intro r h
      rw [applyOps, List.foldl_cons]
      refine ih (applyOp r op) ?_
      cases op with
      | warn m =>
        intro he
        have he2 : r.errors ≠ [] := by
          simpa [applyOp, add_warning] using he
        simpa [applyOp, add_warning] using h he2
      | err m => intro _; rfl
  exact main ops r0 (fun he => absurd h0 he)

/-- C10 witness: a concrete error call flips and keeps the failure flag. -/
theorem conversionResult_error_invariant_witness :
    ({ success := true } : ConversionResult).errors = [] ∧
    (applyOps { success := true } [ResultOp.err (str "boom")]).errors ≠ [] ∧
    (applyOps { success := true } [ResultOp.err (str "boom")]).success = false := by
  refine ⟨rfl, by decide, ?_⟩
  exact conversionResult_error_invariant { success := true } [ResultOp.err (str "boom")]
    rfl (by decide)

/-! ### Link rewriter (`any2md/normalizer/link_rewriter.py`)

Paths are modelled as a root flag plus component list (`pathlib` semantics:
`"."` and empty segments are dropped when parsing; `relative_to` succeeds
exactly when the base's components are a leading run of the path's
components).  `urllib.parse.unquote` is modelled bytewise for the ASCII
range; `urlparse` scheme detection follows CPython (a leading ASCII letter,
scheme characters up to the first colon, lowercased). -/

def splitOn (sep : Char) : Str → List Str
  | [] => [[]]
  | c :: cs =>
    let r := splitOn sep cs
    if c = sep then [] :: r
    else
      match r with
      | [] => [[c]]
      | h :: t => (c :: h) :: t

def joinSep (sep : Char) : List Str → Str
  | [] => []
  | [k] => k
  | k :: rest => k ++ sep :: joinSep sep rest

structure PPath where
  isAbs : Bool
  parts : List Str
deriving DecidableEq

def PPath.render (p : PPath) : Str :=
  if p.isAbs then '/' :: joinSep '/' p.parts
  else if p.parts = [] then str "." else joinSep '/' p.parts

def parsePath (s : Str) : PPath :=
  { isAbs := match s with | '/' :: _ => true | _ => false,
    parts := (splitOn '/' s).filter (fun seg => seg != [] && seg != str ".") }

def PPath.name (p : PPath) : Str := p.parts.getLastD []



def PPath.parent (p : PPath) : PPath := ⟨p.isAbs, p.parts.dropLast⟩
def PPath.join (p : PPath) (seg : Str) : PPath := ⟨p.isAbs, p.parts ++ [seg]⟩
def PPath.relTo (p base : PPath) : Option PPath :=
  if p.isAbs = base.isAbs ∧ base.parts.isPrefixOf p.parts then
    some ⟨false, p.parts.drop base.parts.length⟩
  else none

def schemeChar (c : Char) : Bool := c.isAlphanum || c = '+' || c = '-' || c = '.'

def urlScheme (url : Str) : Str :=
  match url.findIdx? (fun c => c = ':') with
  | none => []
  | some i =>
    if 0 < i ∧ (match url with | c :: _ => c.isAlpha | [] => false) = true ∧
        (url.take i).all schemeChar then
      (url.take i).map Char.toLower
    else []

def hexVal (c : Char) : Option Nat :=
  if '0' ≤ c ∧ c ≤ '9' then some (c.toNat - '0'.toNat)
  else if 'a' ≤ c ∧ c ≤ 'f' then some (c.toNat - 'a'.toNat + 10)
  else if 'A' ≤ c ∧ c ≤ 'F' then some (c.toNat - 'A'.toNat + 10)
  else none

def pyUnquote : Str → Str
  | '%' :: a :: b :: rest =>
    match hexVal a, hexVal b with
    | some x, some y => Char.ofNat (16 * x + y) :: pyUnquote rest
    | _, _ => '%' :: pyUnquote (a :: b :: rest)
  | c :: rest => c :: pyUnquote rest
  | [] => []

def anchorKeep (c : Char) : Bool :=
  decide (('a' ≤ c ∧ c ≤ 'z') ∨ ('0' ≤ c ∧ c ≤ '9') ∨ c = '-')

def normalizeAnchor (anchor : Str) : Str :=
  match anchor with
  | '#' :: t =>
    '#' :: (((t.map Char.toLower).map (fun c => if c = ' ' then '-' else c)).filter anchorKeep)
  | _ => anchor

def startsWithHash : Str → Bool
  | c :: _ => c == '#'
  | [] => false

structure LinkRewriter where
  converted_files : List (PPath × PPath)
  output_dir : PPath
  current_file : PPath
  warnings : List Str
deriving DecidableEq

def findConvertedFile (reg : List (PPath × PPath)) (sourcePath : PPath) : Option PPath :=
  (reg.find? (fun e => e.1.name == sourcePath.name ||
    sourcePath.render.isSuffixOf e.1.render)).map (fun e => e.2)

def docExts : List Str := [str ".docx", str ".pdf", str ".xlsx", str ".doc", str ".xls"]

def extScheme : List Str := [str "http", str "https", str "ftp", str "mailto"]

def rewriteUrl (lr : LinkRewriter) (url : Str) : Str × LinkRewriter :=
  if urlScheme url ∈ extScheme then (url, lr)
  else if startsWithHash url then (normalizeAnchor url, lr)
  else
    let parts := splitOn '#' url
    let url_path := parsePath (pyUnquote (parts.headD []))
    let anchor : Str := match parts with | _ :: a :: _ => '#' :: a | _ => []
    if (pySplitExt url_path.name).2.map Char.toLower ∈ docExts then
      match findConvertedFile lr.converted_files url_path with
      | some converted =>
        match converted.relTo lr.current_file.parent with
        | some rel => (rel.render ++ anchor, lr)
        | none =>
          match converted.relTo lr.output_dir with
          | some rel => ('/' :: rel.render ++ anchor, lr)
          | none =>
            (url, { lr with warnings := lr.warnings ++ [str "Unresolved document link: " ++ url] })
      | none =>
        (url, { lr with warnings := lr.warnings ++ [str "Unresolved document link: " ++ url] })
    else (url, lr)

theorem urlScheme_hash (t : Str) : urlScheme ('#' :: t) = [] := by
  rw [urlScheme]
  rcases hf : ('#' :: t).findIdx? (fun c => c = ':') with _ | i
  · rfl
  · show (if 0 < i ∧ '#'.isAlpha = true ∧ (List.take i ('#' :: t)).all schemeChar = true then
        List.map Char.toLower (List.take i ('#' :: t))
      else []) = []
    rw [if_neg]
    intro hc
    exact absurd hc.2.1 (by decide)

/-- C9: a URL beginning with '#' is rewritten (with no warning and no other
state change) to '#' followed by the anchor text lowercased, spaces replaced
by hyphens, and every character outside [a-z0-9-] removed. -/
theorem rewriteUrl_anchor (lr : LinkRewriter) (url : Str) (h : startsWithHash url = true) :
    rewriteUrl lr url =
      ('#' :: (((url.drop 1).map Char.toLower).map
        (fun c => if c = ' ' then '-' else c)).filter anchorKeep, lr) := by
  obtain ⟨t, ht⟩ : ∃ t, url = '#' :: t := by
    cases url with
    | nil => exact absurd h (by simp [startsWithHash])
    | cons c cs =>
      rw [startsWithHash, beq_iff_eq] at h
      exact ⟨cs, by rw [h]⟩
  subst ht
  rw [rewriteUrl, if_neg (by rw [urlScheme_hash]; decide), if_pos h, normalizeAnchor]
  rfl

/-- C6: a URL that is not external, not an anchor, whose path carries a
convertible document extension but has no match in the conversion registry,
is returned unchanged with exactly one warning "Unresolved document link:
<url>" appended to the resolver's warning list. -/
theorem rewriteUrl_unresolved (lr : LinkRewriter) (url : Str)
    (h1 : urlScheme url ∉ extScheme)
    (h2 : startsWithHash url = false)
    (h3 : (pySplitExt (parsePath (pyUnquote ((splitOn '#' url).headD []))).name).2.map
      Char.toLower ∈ docExts)
    (h4 : findConvertedFile lr.converted_files
      (parsePath (pyUnquote ((splitOn '#' url).headD []))) = none) :
    rewriteUrl lr url =
      (url, { lr with warnings := lr.warnings ++ [str "Unresolved document link: " ++ url] }) := by
  rw [rewriteUrl, if_neg h1, if_neg (by rw [h2]; exact Bool.false_ne_true)]
  simp only [if_pos h3, h4]

/-- A resolver instance over an empty registry, used by the witnesses. -/
def lrExample : LinkRewriter :=
  { converted_files := [], output_dir := ⟨false, [str "docs"]⟩,
    current_file := ⟨false, [str "docs", str "a.md"]⟩, warnings := [] }

/-- C9 witness: the spec's example anchor. -/
theorem rewriteUrl_anchor_witness :
    startsWithHash (str "#My Heading") = true ∧
    rewriteUrl lrExample (str "#My Heading") = (str "#my-heading", lrExample) := by
  refine ⟨by decide, ?_⟩
  rw [rewriteUrl_anchor lrExample (str "#My Heading") (by decide)]
  decide

/-- C6 witness: a document link over an empty registry. -/
theorem rewriteUrl_unresolved_witness :
    findConvertedFile lrExample.converted_files
      (parsePath (pyUnquote ((splitOn '#' (str "report.docx")).headD []))) = none ∧
    rewriteUrl lrExample (str "report.docx") =
      (str "report.docx", { lrExample with
        warnings := lrExample.warnings ++ [str "Unresolved document link: " ++ str "report.docx"] }) :=
  ⟨by decide, rewriteUrl_unresolved lrExample (str "report.docx")
    (by decide) (by decide) (by decide) (by decide)⟩


/-! ### Regular-expression substitution passes

`LinkRewriter.rewrite_links` applies `re.sub` for inline links and for
line-anchored reference definitions; `ImageHandler.rewrite_image_paths`
applies `re.sub` for image references.  The scanners below emulate
`re.sub`'s left-to-right, non-overlapping semantics: at each position try
the (deterministic, since the character classes exclude their closing
bracket) pattern; on failure advance one character, on success resume after
the match. -/

def takeUntil (c : Char) (l : Str) : Str := l.takeWhile (fun x => x ≠ c)
def dropUntil (c : Char) (l : Str) : Str := l.dropWhile (fun x => x ≠ c)

theorem length_dropWhile_le (p : Char → Bool) (l : Str) :
    (l.dropWhile p).length ≤ l.length := by
  induction l with
  | nil => exact Nat.le_refl 0
  | cons c cs ih =>
    rw [List.dropWhile_cons]
    split
    · exact Nat.le_trans ih (Nat.le_succ _)
    · exact Nat.le_refl _

/-- Match `\[(A)\]\((U)\)` at the current position, where `A` is `[^\]]*` if
`altMayBeEmpty` and `[^\]]+` otherwise, and `U` is `[^)]+`; returns the two
captures and the remainder after the match. -/
def tryBracketMatch (altMayBeEmpty : Bool) (c : Char) (rest : Str) :
    Option (Str × Str × Str) :=
  if c = '[' then
    match dropUntil ']' rest with
    | ']' :: '(' :: r3 =>
      match dropUntil ')' r3 with
      | ')' :: r5 =>
        if (altMayBeEmpty = true ∨ takeUntil ']' rest ≠ []) ∧ takeUntil ')' r3 ≠ [] then
          some (takeUntil ']' rest, takeUntil ')' r3, r5)
        else none
      | _ => none
    | _ => none
  else none

/-- The inline-link pattern `\[([^\]]+)\]\(([^)]+)\)`. -/
def tryLinkMatch (c : Char) (rest : Str) : Option (Str × Str × Str) :=
  tryBracketMatch false c rest

/-- The image pattern `!\[([^\]]*)\]\(([^)]+)\)`. -/
def tryImageMatch (c1 : Char) (rest : Str) : Option (Str × Str × Str) :=
  if c1 = '!' then
    match rest with
    | c2 :: r2 => tryBracketMatch true c2 r2
    | [] => none
  else none

theorem tryBracketMatch_length {b : Bool} {c : Char} {rest t u r : Str}
    (h : tryBracketMatch b c rest = some (t, u, r)) : r.length < rest.length := by
  rw [tryBracketMatch] at h
  split at h
  · split at h
    · rename_i r3 heq1
      split at h
      · rename_i r5 heq2
        split at h
        · rw [Option.some_inj, Prod.mk.injEq, Prod.mk.injEq] at h
          obtain ⟨h1, h2a, h3⟩ := h
          subst h3
          have b1 : (dropUntil ']' rest).length ≤ rest.length :=
            length_dropWhile_le _ rest
          have b2 : (dropUntil ')' r3).length ≤ r3.length :=
            length_dropWhile_le _ r3
          rw [heq1] at b1
          rw [heq2] at b2
          simp only [List.length_cons] at b1 b2
          omega
        · exact absurd h (by simp)
      · exact absurd h (by simp)
    · exact absurd h (by simp)
  · exact absurd h (by simp)

/-- Left-to-right non-overlapping substitution of the inline-link pattern,
threading resolver state through the replacement callback (models
`re.sub(r"\[([^\]]+)\]\(([^)]+)\)", ...)` with a stateful callback).  The
fuel argument only serves structural recursion: every step consumes at least
one input character and one fuel unit, so the wrapper's `length + 1` never
runs out. -/
def subLinksGo {σ : Type} (f : σ → Str → Str → (Str × σ)) :
    Nat → σ → Str → (Str × σ)
  | 0, st, l => (l, st)
  | _ + 1, st, [] => ([], st)
  | fuel + 1, st, c :: rest =>
    match tryLinkMatch c rest with
    | some (t, u, r5) =>
      let fu := f st t u
      let rec2 := subLinksGo f fuel fu.2 r5
      (fu.1 ++ rec2.1, rec2.2)
    | none =>
      let rec2 := subLinksGo f fuel st rest
      (c :: rec2.1, rec2.2)

def subLinksSt {σ : Type} (f : σ → Str → Str → (Str × σ)) (st : σ) (l : Str) : Str × σ :=
  subLinksGo f (l.length + 1) st l

/-- Same scan for the image pattern, with a pure callback
(`ImageHandler.rewrite_image_paths` carries no state). -/
def subImagesGo (f : Str → Str → Str) : Nat → Str → Str
  | 0, l => l
  | _ + 1, [] => []
  | fuel + 1, c :: rest =>
    match tryImageMatch c rest with
    | some (alt, p, r5) => f alt p ++ subImagesGo f fuel r5
    | none => c :: subImagesGo f fuel rest

def subImages (f : Str → Str → Str) (l : Str) : Str := subImagesGo f (l.length + 1) l

/-! ### Orchestrator (`any2md/cli.py`: `_convert_file`, `_get_output_path`)

`_convert_file` is modelled as a pure function of the extraction result, the
configuration, and the filesystem (the set of existing file paths), returning
the file report, the updated filesystem and registry, and a trace of the
write/commit effects in program order. -/

/-- `_rewrite_markdown_link`: replacement callback for inline links. -/
def rewriteInline (st : LinkRewriter) (text url : Str) : Str × LinkRewriter :=
  let r := rewriteUrl st url
  (str "[" ++ text ++ str "](" ++ r.1 ++ str ")", r.2)

/-- `_rewrite_reference_link` applied to one line.  The definition regex
`^\[([^\]]+)\]:\s*(.+)$` is anchored per line under `re.MULTILINE` and is
modelled as a per-line map.  Declared simplification: in Python the `\s*`
between the colon and the URL can also consume newlines, so a definition
whose URL sits alone on the following line would match across the line
break; the model treats such a pair as two non-matching lines.  None of the
theorems below depend on the rewritten content of such inputs. -/
def rewriteRefLine (st : LinkRewriter) (line : Str) : Str × LinkRewriter :=
  match line with
  | '[' :: rest =>
    match dropUntil ']' rest with
    | ']' :: ':' :: r3 =>
      let t := takeUntil ']' rest
      let u := r3.dropWhile pyIsSpace
      if t ≠ [] ∧ u ≠ [] then
        let r := rewriteUrl st u
        (str "[" ++ t ++ str "]: " ++ r.1, r.2)
      else (line, st)
    | _ => (line, st)
  | _ => (line, st)

def mapLinesSt (st : LinkRewriter) : List Str → (List Str × LinkRewriter)
  | [] => ([], st)
  | l :: ls =>
    let r := rewriteRefLine st l
    let rest := mapLinesSt r.2 ls
    (r.1 :: rest.1, rest.2)

/-- `LinkRewriter.rewrite_links`: the inline pass, then the reference pass. -/
def rewrite_links (st : LinkRewriter) (content : Str) : Str × LinkRewriter :=
  let p1 := subLinksSt rewriteInline st content
  let p2 := mapLinesSt p1.2 (splitNl p1.1)
  (joinNl p2.1, p2.2)

/-- Python `dict.get` over the insertion-ordered association list. -/
def assocFind (m : List (Str × Str)) (k : Str) : Option Str :=
  (m.find? (fun e => e.1 == k)).map (fun e => e.2)

/-- `ImageHandler.rewrite_image_paths`. -/
def rewrite_image_paths (content : Str) (mapping : List (Str × Str)) : Str :=
  if mapping = [] then content
  else
    subImages (fun alt p =>
      let nm := pyPathFinal p
      let newPath :=
        match assocFind mapping nm with
        | some v => v
        | none => match assocFind mapping p with | some v => v | none => p
      str "![" ++ alt ++ str "](" ++ newPath ++ str ")") content

/-- `get_unique_filename(base_path, desired_name)`: Python counts up from 2
until a free name is found; the model takes the first free counter among
`2 .. fs.length + 2` (one of these `fs.length + 1` candidates must be free
since only `fs.length` paths exist, so the `getD` fallback is unreachable
and only makes the search total). -/
def get_unique_filename (fs : List PPath) (base : PPath) (desired : Str) : PPath :=
  if base.join desired ∈ fs then
    (((List.range (fs.length + 1)).map
        (fun k => base.join ((pySplitExt desired).1 ++ '-' :: natStr (k + 2) ++
          (pySplitExt desired).2))).find?
      (fun p => decide (p ∉ fs))).getD (base.join desired)
  else base.join desired

/-- Python dict assignment `d[k] = v`: replace in place when the key exists
(keeping its position), append otherwise. -/
def dictInsert {α β : Type} [DecidableEq α] : List (α × β) → α → β → List (α × β)
  | [], k, v => [(k, v)]
  | (k0, v0) :: rest, k, v =>
    if k0 = k then (k, v) :: rest else (k0, v0) :: dictInsert rest k v

/-- Python `str.replace(a, b)` for single characters. -/
def mapReplace (a b : Char) (s : Str) : Str := s.map (fun c => if c = a then b else c)

/-- Python `str.title()` (ASCII letters): uppercase a letter following a
non-letter, lowercase the other letters. -/
def pyTitleGo (prevAlpha : Bool) : Str → Str
  | [] => []
  | c :: cs =>
    if c.isAlpha then
      (if prevAlpha then c.toLower else c.toUpper) :: pyTitleGo true cs
    else c :: pyTitleGo false cs

def pyTitle (s : Str) : Str := pyTitleGo false s

/-- The fields of `ConversionConfig` consumed by `_convert_file` and
`_get_output_path`; CLI options not read on the modelled code paths are
omitted.  `inputIsDir` captures the filesystem fact `input_path.is_dir()`. -/
structure Config where
  input_path : PPath
  inputIsDir : Bool
  output_dir : PPath
  assets_dir : PPath
  overwrite : Bool
  front_matter : Bool
  converted_files : List (PPath × PPath)
deriving DecidableEq

def PPath.stem (p : PPath) : Str := (pySplitExt p.name).1

def PPath.joinPath (p q : PPath) : PPath := ⟨p.isAbs, p.parts ++ q.parts⟩

/-- `_get_output_path`: sanitize the stem, preserve the directory structure
relative to the input root when the input is a directory. -/
def get_output_path (file_path : PPath) (config : Config) : PPath :=
  let sanitized := sanitize_filename file_path.stem true ++ str ".md"
  let outDir :=
    if config.inputIsDir then
      match file_path.parent.relTo config.input_path with
      | some rel => config.output_dir.joinPath rel
      | none => config.output_dir
    else config.output_dir
  outDir.join sanitized

/-- Effects of one `_convert_file` run, in program order. -/
inductive Ev where
  | writeImage (p : PPath) (bytes : Nat)
  | writeOutput (p : PPath) (content : Str)
  | commitRegistry (src out : PPath)
deriving DecidableEq

/-- The per-image loop of `ImageHandler.save_images`: sanitize the name, pick
a unique path in the image directory, write the bytes, and record a path
relative to the markdown file's directory (falling back to an output-root
absolute path, then to the full path). -/
def saveImagesGo (imageDir mdParent outputDir : PPath) :
    List (Str × Nat) → List PPath → (List (Str × Str) × List PPath × List Ev)
  | [], fs => ([], fs, [])
  | (nm, bytes) :: more, fs =>
    let ipath := get_unique_filename fs imageDir (sanitize_filename nm true)
    let relStr :=
      match ipath.relTo mdParent with
      | some rel => rel.render
      | none =>
        match ipath.relTo outputDir with
        | some rel => '/' :: rel.render
        | none => ipath.render
    let rest := saveImagesGo imageDir mdParent outputDir more (fs ++ [ipath])
    ((nm, relStr) :: rest.1, rest.2.1, Ev.writeImage ipath bytes :: rest.2.2)

/-- `ImageHandler.save_images`: no-op on an empty image dict (no directory is
created), otherwise place every image under `<assets_dir>/<slug>/`. -/
def save_images (config : Config) (slug : Str) (images : List (Str × Nat))
    (markdown_file : PPath) (fs : List PPath) :
    List (Str × Str) × List PPath × List Ev :=
  if images = [] then ([], fs, [])
  else
    saveImagesGo (config.assets_dir.join slug) markdown_file.parent config.output_dir
      images fs

/-- Result of one `_convert_file` run. -/
structure ConvertOutcome where
  report : FileReport
  fs : List PPath
  converted_files : List (PPath × PPath)
  trace : List Ev
deriving DecidableEq

/-- `_convert_file`: extraction short-circuit on failure; otherwise heading
normalization, whitespace normalization, output-path resolution, image
placement, link rewriting, optional front matter, collision handling, file
write, and finally the registry commit.  The extraction step itself
(`converter.convert`) is the function's `result` input. -/
def convert_file (file_path : PPath) (converter_name : Str)
    (result : ConversionResult) (config : Config) (fs : List PPath) (now : Str) :
    ConvertOutcome :=
  if result.success = false then
    { report := { source_file := file_path.render, output_file := none, success := false,
                  errors := result.errors, warnings := result.warnings,
                  quality_score := result.quality_score, converter_used := converter_name },
      fs := fs, converted_files := config.converted_files, trace := [] }
  else
    let nh := normalize_headings result.markdown_content
    let warnings1 := result.warnings ++ nh.2
    let md2 := normalize_whitespace nh.1
    let output_path := get_output_path file_path config
    let slug := sanitize_filename (pySplitExt file_path.name).1 true
    let si := save_images config slug result.images output_path fs
    let md3 := rewrite_image_paths md2 si.1
    let lr0 : LinkRewriter :=
      { converted_files := config.converted_files,
        output_dir := config.output_dir, current_file := output_path, warnings := [] }
    let rl := rewrite_links lr0 md3
    let warnings2 := warnings1 ++ rl.2.warnings
    let md5 :=
      if config.front_matter then
        let title :=
          match assocFind result.metadata (str "title") with
          | some t => t
          | none => pyTitle (mapReplace '-' ' ' file_path.stem)
        add_front_matter rl.1 title file_path.render now
          (result.metadata.filter (fun kv => kv.1 != str "title"))
      else rl.1
    let fs1 := si.2.1
    let output_path2 :=
      if output_path ∈ fs1 ∧ config.overwrite = false then
        get_unique_filename fs1 output_path.parent output_path.name
      else output_path
    { report := { source_file := file_path.render, output_file := some output_path2.render,
                  success := true, warnings := warnings2, errors := result.errors,
                  quality_score := result.quality_score, converter_used := converter_name },
      fs := fs1 ++ [output_path2],
      converted_files := dictInsert config.converted_files file_path output_path2,
      trace := si.2.2 ++ [Ev.writeOutput output_path2 md5,
                          Ev.commitRegistry file_path output_path2] }


/-- Configuration used by the concrete orchestrator runs below. -/
def cfgEx : Config :=
  { input_path := ⟨false, [str "in"]⟩, inputIsDir := false,
    output_dir := ⟨false, [str "docs"]⟩,
    assets_dir := ⟨false, [str "docs", str "assets"]⟩,
    overwrite := false, front_matter := false, converted_files := [] }

/-- Extraction result with a clean score whose content has two H1 headings
(so the pipeline appends one heading warning after extraction). -/
def resEx : ConversionResult := { success := true, markdown_content := str "# A\n# B" }

def outEx : ConvertOutcome :=
  convert_file ⟨false, [str "in", str "a.docx"]⟩ (str "DocxConverter") resEx cfgEx []
    (str "t0")

/-- C1 counterexample: an end-to-end run whose file report carries one
pipeline warning (from heading normalization) and no errors, yet a quality
score of 1.0 — not the claimed max 0 (1 − 0.05·warnings − 0.2·errors) =
0.95, because `_convert_file` appends normalization and link warnings with
`list.extend` and never routes them through `add_warning`. -/
theorem convert_file_quality_cex :
    outEx.report.warnings.length = 1 ∧ outEx.report.errors.length = 0 ∧
    outEx.report.quality_score = 1 ∧
    ¬ outEx.report.quality_score =
        max 0 (1 - (1/20 : ℚ) * outEx.report.warnings.length
                 - (1/5 : ℚ) * outEx.report.errors.length) := by
  have h1 : outEx.report.warnings.length = 1 := by decide
  have h2 : outEx.report.errors.length = 0 := by decide
  have h3 : outEx.report.quality_score = 1 := rfl
  refine ⟨h1, h2, h3, ?_⟩
  rw [h1, h2, h3]
  rw [show max (0:ℚ) (1 - (1/20 : ℚ) * (1:Nat) - (1/5 : ℚ) * (0:Nat)) = 19/20 by norm_num]
  norm_num

/-- C1 (amended): the quality score reported in the FileReport is exactly the
extraction result's quality score: the warnings appended by heading
normalization and link resolution enter the report's warning list but do not
change the score.  The score itself starts at 1.0 on a fresh result and is
lowered, with floor 0.0, by 0.05 per `add_warning` and 0.2 per `add_error`
during extraction. -/
theorem convert_file_quality_from_extraction :
    (∀ (file_path : PPath) (converter_name : Str) (result : ConversionResult)
        (config : Config) (fs : List PPath) (now : Str),
      (convert_file file_path converter_name result config fs now).report.quality_score =
        result.quality_score) ∧
    (∀ (r : ConversionResult) (m : Str),
      (add_warning r m).quality_score = max 0 (r.quality_score - 1/20)) ∧
    (∀ (r : ConversionResult) (m : Str),
      (add_error r m).quality_score = max 0 (r.quality_score - 1/5)) ∧
    ({ success := true } : ConversionResult).quality_score = 1 := by
  refine ⟨?_, fun r m => rfl, fun r m => rfl, rfl⟩
  intro file_path converter_name result config fs now
  rw [convert_file]
  split
  · rfl
  · rfl

theorem saveImagesGo_events (imageDir mdParent outputDir : PPath) :
    ∀ (images : List (Str × Nat)) (fs : List PPath),
      ∀ e ∈ (saveImagesGo imageDir mdParent outputDir images fs).2.2,
        ∃ q b, e = Ev.writeImage q b := by
  intro images
  induction images with
  | nil => intro fs e he; simp [saveImagesGo] at he
  | cons img more ih =>
    intro fs e he
    rcases img with ⟨nm, bytes⟩
    have hstep : (saveImagesGo imageDir mdParent outputDir ((nm, bytes) :: more) fs).2.2 =
        Ev.writeImage (get_unique_filename fs imageDir (sanitize_filename nm true)) bytes ::
          (saveImagesGo imageDir mdParent outputDir more
            (fs ++ [get_unique_filename fs imageDir (sanitize_filename nm true)])).2.2 := rfl
    rw [hstep] at he
    rcases List.mem_cons.1 he with h | h
    · exact ⟨_, _, h⟩
    · exact ih _ e h

theorem save_images_events (config : Config) (slug : Str) (images : List (Str × Nat))
    (markdown_file : PPath) (fs : List PPath) :
    ∀ e ∈ (save_images config slug images markdown_file fs).2.2,
      ∃ q b, e = Ev.writeImage q b := by
  rw [save_images]
  split
  · intro e he; simp at he
  · exact saveImagesGo_events _ _ _ _ _

/-- C2 (amended): for every successful conversion the effect trace consists
of the image writes followed by the output-file write and then, last, the
registry commit of the actually-written path: the commit happens immediately
after the write, not before it. -/
theorem convert_file_write_then_commit (file_path : PPath) (converter_name : Str)
    (result : ConversionResult) (config : Config) (fs : List PPath) (now : Str)
    (h : result.success = true) :
    ∃ pre p content,
      (convert_file file_path converter_name result config fs now).trace =
        pre ++ [Ev.writeOutput p content, Ev.commitRegistry file_path p] ∧
      (∀ e ∈ pre, ∃ q b, e = Ev.writeImage q b) ∧
      (convert_file file_path converter_name result config fs now).converted_files =
        dictInsert config.converted_files file_path p := by
  rw [convert_file, if_neg (by simp [h])]
  exact ⟨_, _, _, rfl, save_images_events _ _ _ _ _, rfl⟩

/-- A second concrete run (plain content, no images). -/
def resEx2 : ConversionResult := { success := true, markdown_content := str "hello" }

def outEx2 : ConvertOutcome :=
  convert_file ⟨false, [str "in", str "b.docx"]⟩ (str "DocxConverter") resEx2 cfgEx []
    (str "t0")

/-- C2 witness: the amended ordering at a concrete successful run. -/
theorem convert_file_write_then_commit_witness :
    resEx2.success = true ∧
    (∃ pre p content,
      outEx2.trace = pre ++ [Ev.writeOutput p content,
        Ev.commitRegistry ⟨false, [str "in", str "b.docx"]⟩ p] ∧
      (∀ e ∈ pre, ∃ q b, e = Ev.writeImage q b) ∧
      outEx2.converted_files =
        dictInsert cfgEx.converted_files ⟨false, [str "in", str "b.docx"]⟩ p) :=
  ⟨rfl, convert_file_write_then_commit ⟨false, [str "in", str "b.docx"]⟩
    (str "DocxConverter") resEx2 cfgEx [] (str "t0") rfl⟩

def isCommitEv : Ev → Bool
  | Ev.commitRegistry _ _ => true
  | _ => false

def isWriteOutputEv : Ev → Bool
  | Ev.writeOutput _ _ => true
  | _ => false

/-- C2 counterexample: in a concrete successful run the trace holds the
output-file write at position 0 and the registry commit at position 1, so
the commit does not precede the write as claimed. -/
theorem convert_file_commit_order_cex :
    outEx2.trace.map isWriteOutputEv = [true, false] ∧
    outEx2.trace.map isCommitEv = [false, true] ∧
    ¬ outEx2.trace.findIdx isCommitEv < outEx2.trace.findIdx isWriteOutputEv := by
  refine ⟨by decide, by decide, by decide⟩


end Any2MD
